import Mathlib

/-!
Verification of the subunit-money arithmetic core: a shallow embedding of
`lib/money.ts`, `lib/exchange-rate-service.ts` and `lib/money-converter.ts`
(the current implementation, as compiled into `dist`), together with proofs
about its rounding, allocation, parsing/formatting, exchange-rate store and
conversion behaviour.

Modelling conventions, used consistently below:
* JavaScript `BigInt` is modelled by `Int`; `BigInt` division and remainder
  truncate toward zero, so they are modelled by `Int.tdiv` / `Int.tmod`.
* JavaScript strings are modelled by `List Char`.
* JavaScript `number` values that flow into the integer core (proportions,
  exchange rates) are modelled by exact rationals `ℚ`.  The values exercised
  by the claims are far inside the range where IEEE-754 doubles behave like
  the nearest decimal; `Math.round(x)` is modelled as `⌊x + 1/2⌋`, its exact
  semantics on such values (including negative halves).
* Rational arithmetic is spelled with the `mkRat`-based helpers `ratAdd`,
  `ratMul`, `ratOneDiv` so that concrete states evaluate inside the kernel;
  the lemmas `ratAdd_eq`, `ratMul_eq`, `ratOneDiv_eq` identify them with the
  ordinary field operations on `ℚ`.
* `Map` keyed by the string `` `${from}:${to}` `` is modelled as an
  association list keyed by the pair of currency codes (codes are colon-free
  in every claim considered).
* `Date` timestamps carry no information used by any claim and are omitted
  from the modelled rate entries.
-/

namespace SubunitMoney

/-- Error kinds of the library, one constructor per error class that the
TypeScript code can raise: the five classes of `lib/errors.ts` plus the raw
`TypeError` used for validation and the `RangeError` JavaScript raises on
`BigInt` division by zero. -/
inductive JsError where
  | currencyUnknown
  | amountInvalid
  | subunitExceeded
  | currencyMismatch
  | typeInvalid
  | rangeDivByZero
  | exchangeRateMissing
  deriving DecidableEq, Repr

deriving instance DecidableEq for Except

/-- Rational addition via `mkRat`, kernel-computable; equal to `+` on `ℚ`. -/
def ratAdd (a b : ℚ) : ℚ := mkRat (a.num * b.den + b.num * a.den) (a.den * b.den)

/-- Rational multiplication via `mkRat`, kernel-computable; equal to `*` on `ℚ`. -/
def ratMul (a b : ℚ) : ℚ := mkRat (a.num * b.num) (a.den * b.den)

/-- Rational reciprocal via `mkRat`, kernel-computable; equal to `1 / q`. -/
def ratOneDiv (q : ℚ) : ℚ := mkRat (if q.num < 0 then -(q.den : ℤ) else (q.den : ℤ)) q.num.natAbs

/-- Sum of a list of rationals by left fold, mirroring
`proportions.reduce((sum, p) => sum + p, 0)`. -/
def ratListSum (l : List ℚ) : ℚ := l.foldl ratAdd 0

/-- JavaScript `Math.round` on an exact rational: `⌊q + 1/2⌋`, computed on
numerator and denominator so that it evaluates in the kernel. -/
def jsRound (q : ℚ) : ℤ := (2 * q.num + q.den).fdiv (2 * q.den)

/-- Embedding of `Money.#roundedDivide` from `lib/money.ts` (identical to the
converter's `#bankersRound`): divide with banker's rounding, `BigInt`
division semantics (`tdiv`/`tmod`). -/
def roundedDivide (numerator denominator : ℤ) : ℤ :=
  if denominator = 1 then numerator
  else
    let quotient := numerator.tdiv denominator
    let remainder := numerator.tmod denominator
    if remainder = 0 then quotient
    else
      let halfDenominator := denominator.tdiv 2
      let absRemainder := if remainder < 0 then -remainder else remainder
      if halfDenominator < absRemainder then
        if numerator < 0 then quotient - 1 else quotient + 1
      else if absRemainder = halfDenominator then
        if quotient.tmod 2 = 0 then quotient
        else if numerator < 0 then quotient - 1 else quotient + 1
      else quotient

/-- Embedding of `MoneyConverter.#bankersRound` from `lib/money-converter.ts`,
a verbatim copy of `Money.#roundedDivide` in the source. -/
def bankersRound (numerator denominator : ℤ) : ℤ :=
  if denominator = 1 then numerator
  else
    let quotient := numerator.tdiv denominator
    let remainder := numerator.tmod denominator
    if remainder = 0 then quotient
    else
      let halfDenominator := denominator.tdiv 2
      let absRemainder := if remainder < 0 then -remainder else remainder
      if halfDenominator < absRemainder then
        if numerator < 0 then quotient - 1 else quotient + 1
      else if absRemainder = halfDenominator then
        if quotient.tmod 2 = 0 then quotient
        else if numerator < 0 then quotient - 1 else quotient + 1
      else quotient

/-- Numeric value of a decimal digit character. -/
def charToDigit (c : Char) : ℕ := c.toNat - 48

/-- Decimal digit character for a value below ten. -/
def digitToChar (d : ℕ) : Char := Char.ofNat (48 + d)

/-- Little-endian decimal digits of `n`, by repeated division; the first
argument is fuel, always instantiated with `n` itself. -/
def digitsRevAux : ℕ → ℕ → List ℕ
  | _, 0 => []
  | 0, _ + 1 => []
  | fuel + 1, n + 1 => ((n + 1) % 10) :: digitsRevAux fuel ((n + 1) / 10)

/-- Little-endian decimal digits of `n` (empty for zero). -/
def natDigitsRev (n : ℕ) : List ℕ := digitsRevAux n n

/-- Decimal rendering of a natural number, mirroring JavaScript
`BigInt.prototype.toString`: big-endian digits, `"0"` for zero. -/
def natToChars (n : ℕ) : List Char :=
  if n = 0 then ['0'] else ((natDigitsRev n).reverse).map digitToChar

/-- Numeric value of a big-endian string of decimal digit characters,
mirroring `BigInt(string)` on an all-digit string. -/
def digitVal (l : List Char) : ℕ := l.foldl (fun acc c => 10 * acc + charToDigit c) 0

/-- Numeric value of a big-endian digit-value list. -/
def valN (l : List ℕ) : ℕ := l.foldl (fun acc d => 10 * acc + d) 0

/-- String `padStart(width, '0')`, as used when formatting fractional parts. -/
def padStartZeros (width : ℕ) (l : List Char) : List Char :=
  List.replicate (width - l.length) '0' ++ l

/-- String `padEnd(width, '0')`, as used when parsing fractional parts. -/
def padEndZeros (width : ℕ) (l : List Char) : List Char :=
  l ++ List.replicate (width - l.length) '0'

/-- Leading-minus split of an amount string, the `(-)?` group of the amount
regular expression. -/
def splitNeg : List Char → Bool × List Char
  | [] => (false, [])
  | c :: r => if c = '-' then (true, r) else (false, c :: r)

/-- Sign-free part of the amount grammar `(\d+)(?:\.(\d+))?$`: the whole
digits and the fractional digits (empty when the dot is absent), or `none`
when the remainder is not in the accepted grammar. -/
def parseDecCore (s : List Char) : Option (List Char × List Char) :=
  let w := s.takeWhile Char.isDigit
  let rest := s.dropWhile Char.isDigit
  if w = [] then none
  else
    match rest with
    | [] => some (w, [])
    | c :: f =>
      if c = '.' ∧ f ≠ [] ∧ f.all Char.isDigit then some (w, f) else none

/-- Deterministic equivalent of matching `^(-)?(\d+)(?:\.(\d+))?$`: returns
the sign, the whole digits and the fractional digits (empty when the dot is
absent), or `none` when the string is not in the accepted grammar. -/
def parseDec (s : List Char) : Option (Bool × List Char × List Char) :=
  let p := splitNeg s
  (parseDecCore p.2).map (fun wf => (p.1, wf.1, wf.2))

/-- Embedding of `Money.#parseAmount` from `lib/money.ts` for string input:
validate against the amount grammar, reject fractional parts longer than the
currency's decimal-digit count, right-pad the fraction and read the digits as
a signed integer of native subunits. -/
def parseAmount (decimalDigits : ℕ) (s : List Char) : Except JsError ℤ :=
  match parseDec s with
  | none => .error .amountInvalid
  | some (sign, whole, frac) =>
    if decimalDigits < frac.length then .error .subunitExceeded
    else
      let paddedFrac := padEndZeros decimalDigits frac
      let combined : ℤ := digitVal (whole ++ paddedFrac)
      .ok (if sign then -combined else combined)

/-- Embedding of `Money.#formatSubunits` from `lib/money.ts`: split the
absolute subunit count by `10 ^ decimalDigits`, left-pad the fractional part,
join with `'.'` (omitted for zero-decimal currencies), prefix `'-'` when
negative. -/
def formatSubunits (decimalDigits : ℕ) (subunits : ℤ) : List Char :=
  let abs := subunits.natAbs
  let sign : List Char := if subunits < 0 then ['-'] else []
  if decimalDigits = 0 then sign ++ natToChars abs
  else
    let multiplier := 10 ^ decimalDigits
    let wholePart := abs / multiplier
    let fracPart := abs % multiplier
    sign ++ natToChars wholePart ++ ['.'] ++ padStartZeros decimalDigits (natToChars fracPart)

/-- Modelled from the spec: `normalize(s)` means `s` with its fractional part
zero-padded to exactly the currency's decimal-place count (rendered in the
canonical sign-whole-dot-fraction shape; the dot is omitted for zero-decimal
currencies).  Used only to compare the round-trip law of claim C4 against the
implementation. -/
def normalizeAmount (decimalDigits : ℕ) (s : List Char) : List Char :=
  match parseDec s with
  | none => s
  | some (sign, whole, frac) =>
    (if sign then ['-'] else []) ++ whole ++
      (if decimalDigits = 0 then []
       else ['.'] ++ frac ++ List.replicate (decimalDigits - frac.length) '0')

/-- Currency registry of `lib/currency.ts`: a lookup from currency code to
its decimal-digit count, passed explicitly to the operations that consult it
(the TypeScript module keeps it in a module-level `Map`). -/
abbrev Registry : Type := List (String × ℕ)

/-- Embedding of `getCurrency`: first registered definition for a code. -/
def lookupCurrency (reg : Registry) (code : String) : Option ℕ :=
  (List.find? (fun e => e.1 == code) reg).map (fun e => e.2)

/-- Monetary value of `lib/money.ts`: a currency code, the decimal-digit
count of its registered definition (the constructor stores `#currencyDef`),
and the exact count of native subunits as a `BigInt` (`#subunits`). -/
structure Money where
  currency : String
  decimals : ℕ
  subunits : ℤ
  deriving DecidableEq, Repr

/-- Embedding of `Money.#createFromSubunits`: format the subunits and re-run
the constructor's parser on the result (the parse of a formatted amount
always succeeds; the `0` fallback is dead code by
`parseAmount_formatSubunits` below). -/
def createFromSubunits (currency : String) (decimals : ℕ) (subunits : ℤ) : Money :=
  { currency := currency
    decimals := decimals
    subunits :=
      match parseAmount decimals (formatSubunits decimals subunits) with
      | .ok v => v
      | .error _ => 0 }

/-- Embedding of the `Money` constructor on a string amount: resolve the
currency, then parse the amount against its decimal-digit count. -/
def mkMoney (reg : Registry) (currency : String) (amount : List Char) : Except JsError Money :=
  match lookupCurrency reg currency with
  | none => .error .currencyUnknown
  | some d => (parseAmount d amount).map (fun v => ⟨currency, d, v⟩)

/-- Embedding of `Money.prototype.add`: same-currency guard, then exact
integer addition of subunits and `#createFromSubunits`. -/
def moneyAdd (a b : Money) : Except JsError Money :=
  if a.currency ≠ b.currency then .error .currencyMismatch
  else .ok (createFromSubunits a.currency a.decimals (a.subunits + b.subunits))

/-- Embedding of `Money.prototype.subtract`: same-currency guard, then exact
integer subtraction of subunits. -/
def moneySubtract (a b : Money) : Except JsError Money :=
  if a.currency ≠ b.currency then .error .currencyMismatch
  else .ok (createFromSubunits a.currency a.decimals (a.subunits - b.subunits))

/-- Embedding of `Money.prototype.equalTo`: same-currency guard, then subunit
equality. -/
def moneyEqualTo (a b : Money) : Except JsError Bool :=
  if a.currency ≠ b.currency then .error .currencyMismatch
  else .ok (a.subunits = b.subunits)

/-- Embedding of `Money.prototype.toSubunits`. -/
def toSubunits (m : Money) : ℤ := m.subunits

/-- Embedding of `Money.fromSubunits`: resolve the currency, then build the
value through `#createFromSubunits`. -/
def fromSubunits (reg : Registry) (subunits : ℤ) (currency : String) : Except JsError Money :=
  match lookupCurrency reg currency with
  | none => .error .currencyUnknown
  | some d => .ok (createFromSubunits currency d subunits)

/-- Decimal literal shape of `String(factor)` for a finite JavaScript number:
optional minus, whole digits, optional fraction digits, optional decimal
exponent after `'e'`.  `String` always yields the shortest decimal string
that round-trips to the same double, so e.g. the double `0.545` is the
literal `whole "0", frac "545", exp 0`. -/
structure JsNumberLit where
  neg : Bool
  whole : List Char
  frac : List Char
  exp : ℤ
  deriving DecidableEq, Repr

/-- Embedding of `Money.#parseFactor`: read the literal's digits as an exact
integer and a power-of-ten scale; `none` models the `TypeError` thrown when
the base does not match the factor grammar. -/
def parseFactor (f : JsNumberLit) : Option (ℤ × ℕ) :=
  if f.whole = [] ∨ ¬ f.whole.all Char.isDigit ∨ ¬ f.frac.all Char.isDigit then none
  else
    let baseValue : ℤ :=
      (if f.neg then -1 else 1) * (digitVal (f.whole ++ f.frac) : ℤ)
    let netExp : ℤ := f.exp - f.frac.length
    if 0 ≤ netExp then some (baseValue * 10 ^ netExp.toNat, 0)
    else some (baseValue, (-netExp).toNat)

/-- Embedding of `Money.prototype.multiply`: parse the factor into an exact
numerator and scale, multiply the subunits, divide once by `10 ^ scale` with
`#roundedDivide`, and rebuild through `#createFromSubunits`.  The factor is
given as its decimal literal; non-finite factors (rejected up front in the
source) have no literal. -/
def moneyMultiply (m : Money) (factor : JsNumberLit) : Except JsError Money :=
  match parseFactor factor with
  | none => .error .typeInvalid
  | some (factorValue, scale) =>
    let product := m.subunits * factorValue
    let divisor : ℤ := 10 ^ scale
    .ok (createFromSubunits m.currency m.decimals (roundedDivide product divisor))

/-- One `allocations[j] += d` step of allocation's remainder loop (`j` is
always in range when the loop runs). -/
def bumpAt (l : List ℤ) (j : ℕ) (d : ℤ) : List ℤ := l.set j (l.getD j 0 + d)

/-- Remainder-distribution loop of `allocate`: `count` single-subunit steps
of `d` (`+1` or `-1`), round-robin from running index `i`. -/
def distributeLoop : List ℤ → ℕ → ℕ → ℤ → List ℤ
  | allocs, 0, _, _ => allocs
  | allocs, count + 1, i, d =>
    distributeLoop (bumpAt allocs (i % allocs.length) d) count (i + 1) d

/-- Embedding of `Money.prototype.allocate` at the subunit level: the
validation guards in source order, the scaled-weight base allocation by
truncating `BigInt` division, and the round-robin remainder distribution.
`rangeDivByZero` models the `RangeError` JavaScript raises when the rounded
scaled total is the zero `BigInt` divisor. -/
def allocateSubunits (totalSubunits : ℤ) (proportions : List ℚ) : Except JsError (List ℤ) :=
  if proportions = [] then .error .typeInvalid
  else if proportions.any (fun p => p < 0) then .error .typeInvalid
  else
    let total := ratListSum proportions
    if total ≤ 0 then .error .typeInvalid
    else
      let weightTotal := jsRound (ratMul total 1000000)
      if weightTotal = 0 then .error .rangeDivByZero
      else
        let allocations := proportions.map
          (fun p => (totalSubunits * jsRound (ratMul p 1000000)).tdiv weightTotal)
        let remainder := totalSubunits - allocations.sum
        .ok (if 0 ≤ remainder
             then distributeLoop allocations remainder.toNat 0 1
             else distributeLoop allocations (-remainder).toNat 0 (-1))

/-- Embedding of `Money.prototype.allocate`: the subunit-level allocation,
with each share rebuilt through `#createFromSubunits`. -/
def moneyAllocate (m : Money) (proportions : List ℚ) : Except JsError (List Money) :=
  (allocateSubunits m.subunits proportions).map
    (fun allocs => allocs.map (createFromSubunits m.currency m.decimals))

/-- Exchange-rate entry of `lib/exchange-rate-service.ts`: ordered currency
pair, the rate (kept by the source as exact decimal text, modelled as the
exact rational it denotes), and the optional source label.  The `Date`
timestamp carries no information used by any claim and is omitted. -/
structure RateEntry where
  fromCur : String
  toCur : String
  rate : ℚ
  srcTag : Option String
  deriving DecidableEq, Repr

/-- Rate store `#rates`: a `Map` keyed by the ordered currency pair, as an
association list in insertion order. -/
abbrev Store : Type := List RateEntry

/-- Empty store, the state of a freshly constructed service. -/
def emptyStore : Store := []

/-- `Map.set` on the pair key: replace in place, or append when absent. -/
def storeSet : Store → RateEntry → Store
  | [], e => [e]
  | x :: xs, e =>
    if x.fromCur = e.fromCur ∧ x.toCur = e.toCur then e :: xs else x :: storeSet xs e

/-- `Map.get` on the pair key: first (and, by `Map` semantics, only) entry
under the ordered pair. -/
def storeGet : Store → String → String → Option RateEntry
  | [], _, _ => none
  | x :: xs, fromC, toC =>
    if x.fromCur = fromC ∧ x.toCur = toC then some x else storeGet xs fromC toC

/-- `Map.has` on the pair key. -/
def storeHas (s : Store) (fromC toC : String) : Bool :=
  (storeGet s fromC toC).isSome

/-- The inverse-source label: `` `${source} (inverse)` `` or `"(inverse)"`. -/
def tagInverse : Option String → Option String
  | some src => some (src ++ " (inverse)")
  | none => some "(inverse)"

/-- Embedding of `ExchangeRateService.setRate`: store the forward entry
(overwriting any previous one), then, when `autoInverse` is set and the
reverse key is absent from the updated map, synthesize the reverse entry
with rate `1 / rate`.  `toPrecision(15)` keeps the values set by the claims
exact and is modelled as the identity on the denoted rational. -/
def setRate (s : Store) (fromC toC : String) (rate : ℚ) (source : Option String)
    (autoInverse : Bool) : Store :=
  let s1 := storeSet s ⟨fromC, toC, rate, source⟩
  if autoInverse then
    if storeHas s1 toC fromC then s1
    else storeSet s1 ⟨toC, fromC, ratOneDiv rate, tagInverse source⟩
  else s1

/-- Embedding of `ExchangeRateService.getRate`: a same-currency request is
answered with the synthesized identity rate without consulting storage;
otherwise the stored entry, if any. -/
def getRate (s : Store) (fromC toC : String) : Option RateEntry :=
  if fromC = toC then some ⟨fromC, toC, 1, some "(identity)"⟩
  else storeGet s fromC toC

/-- Embedding of `ExchangeRateService.removeRate`: `Map.delete` on the pair
key (the returned boolean is unused by the claims). -/
def removeRate : Store → String → String → Store
  | [], _, _ => []
  | x :: xs, fromC, toC =>
    if x.fromCur = fromC ∧ x.toCur = toC then removeRate xs fromC toC
    else x :: removeRate xs fromC toC

/-- Embedding of `ExchangeRateService.loadRates`: set each parsed
`"FROM:TO"` pair with auto-inverse disabled (entries whose key yields no
`from`/`to` parts are skipped before this point). -/
def loadRates (s : Store) (entries : List ((String × String) × ℚ)) (source : Option String) :
    Store :=
  entries.foldl (fun acc e => setRate acc e.1.1 e.1.2 e.2 source false) s

/-- Mutating operations of the exchange-rate store, for reasoning about all
reachable states. -/
inductive StoreOp where
  | set (fromC toC : String) (rate : ℚ) (source : Option String) (autoInverse : Bool)
  | load (entries : List ((String × String) × ℚ)) (source : Option String)
  | remove (fromC toC : String)
  | clearAll
  deriving Repr

/-- Interpretation of one store operation. -/
def runOp (s : Store) : StoreOp → Store
  | .set fromC toC rate source autoInverse => setRate s fromC toC rate source autoInverse
  | .load entries source => loadRates s entries source
  | .remove fromC toC => removeRate s fromC toC
  | .clearAll => []

/-- State reached by running a sequence of operations on a fresh store. -/
def runOps (ops : List StoreOp) : Store := ops.foldl runOp emptyStore

/-- A store operation whose written pairs are all off-diagonal. -/
def goodOp : StoreOp → Prop
  | .set f t _ _ _ => f ≠ t
  | .load entries _ => ∀ x ∈ entries, x.1.1 ≠ x.1.2
  | .remove _ _ => True
  | .clearAll => True

/-- Embedding of `MoneyConverter.convert` (current source): identity
short-circuit, target-currency resolution, rate lookup, then exact integer
arithmetic: the rate scaled to an integer numerator at 15 decimal digits of
precision, and a single `#bankersRound` down to target subunits.  The
converter reads the source currency's definition from the registry with a
non-null assertion; a constructed `Money` always has its definition's
decimal count, which the model carries in the value itself. -/
def convert (reg : Registry) (s : Store) (money : Money) (targetCurrency : String) :
    Except JsError Money :=
  if money.currency = targetCurrency then .ok money
  else
    match lookupCurrency reg targetCurrency with
    | none => .error .currencyUnknown
    | some targetDecimals =>
      match getRate s money.currency targetCurrency with
      | none => .error .exchangeRateMissing
      | some entry =>
        let sourceMultiplier : ℤ := 10 ^ money.decimals
        let targetMultiplier : ℤ := 10 ^ targetDecimals
        let rateMultiplier : ℤ := 10 ^ (15 : ℕ)
        let rateScaled : ℤ := jsRound (ratMul entry.rate (1000000000000000 : ℚ))
        let product := toSubunits money * rateScaled * targetMultiplier
        let divisor := rateMultiplier * sourceMultiplier
        .ok (createFromSubunits targetCurrency targetDecimals (bankersRound product divisor))

/-- Helper arithmetic `ratAdd` agrees with rational addition. -/
theorem ratAdd_eq (a b : ℚ) : ratAdd a b = a + b := by
  rw [ratAdd, Rat.mkRat_eq_div]
  push_cast
  conv_rhs => rw [← Rat.num_div_den a, ← Rat.num_div_den b]
  rw [div_add_div _ _ (by positivity) (by positivity)]
  ring_nf

/-- Helper arithmetic `ratMul` agrees with rational multiplication. -/
theorem ratMul_eq (a b : ℚ) : ratMul a b = a * b := by
  rw [ratMul, Rat.mkRat_eq_div]
  push_cast
  conv_rhs => rw [← Rat.num_div_den a, ← Rat.num_div_den b]
  rw [div_mul_div_comm]

/-- Helper arithmetic `ratOneDiv` agrees with the rational reciprocal. -/
theorem ratOneDiv_eq (q : ℚ) : ratOneDiv q = 1 / q := by
  rw [ratOneDiv, Rat.mkRat_eq_div]
  rcases lt_trichotomy q.num 0 with h | h | h
  · rw [if_pos h, Int.cast_neg]
    conv_rhs => rw [← Rat.num_div_den q]
    rw [one_div_div, Int.cast_natAbs, abs_of_neg (by exact_mod_cast h)]
    push_cast
    ring_nf
  · rw [if_neg (by omega)]
    have hq : q = 0 := by
      rw [← Rat.num_div_den q, h]; simp
    subst hq
    simp
  · rw [if_neg (by omega)]
    conv_rhs => rw [← Rat.num_div_den q]
    rw [one_div_div, Int.cast_natAbs, abs_of_pos (by exact_mod_cast h)]
    norm_cast

/-- Digit characters have code points between 48 and 57. -/
theorem isDigit_toNat {c : Char} (h : c.isDigit = true) : 48 ≤ c.toNat ∧ c.toNat ≤ 57 := by
  simp [Char.isDigit] at h
  exact h

/-- Digit values of digit characters are below ten. -/
theorem charToDigit_lt {c : Char} (h : c.isDigit = true) : charToDigit c < 10 := by
  have := isDigit_toNat h
  rw [charToDigit]
  omega

/-- Character-level inverse: rendering the value of a digit character gives
the character back. -/
theorem digitToChar_charToDigit {c : Char} (h : c.isDigit = true) :
    digitToChar (charToDigit c) = c := by
  have h48 := (isDigit_toNat h).1
  rw [digitToChar, charToDigit, Nat.add_sub_cancel' h48]
  exact Char.ofNat_toNat c

/-- Value-level inverse: the value of the character of a digit is the digit. -/
theorem charToDigit_digitToChar {d : ℕ} (h : d < 10) : charToDigit (digitToChar d) = d := by
  interval_cases d <;> rfl

/-- Characters of digits below ten are digit characters. -/
theorem isDigit_digitToChar {d : ℕ} (h : d < 10) : (digitToChar d).isDigit = true := by
  interval_cases d <;> rfl

/-- Fuel does not matter for `digitsRevAux` once it covers the argument. -/
theorem digitsRevAux_congr :
    ∀ fuel₁ fuel₂ n : ℕ, n ≤ fuel₁ → n ≤ fuel₂ →
      digitsRevAux fuel₁ n = digitsRevAux fuel₂ n := by
  intro fuel₁
  induction fuel₁ with
  | zero =>
    intro fuel₂ n h1 _
    interval_cases n
    cases fuel₂ <;> rfl
  | succ l ih =>
    intro fuel₂ n h1 h2
    match n, fuel₂ with
    | 0, fuel₂ => cases fuel₂ <;> rfl
    | k + 1, m + 1 =>
      show ((k + 1) % 10) :: digitsRevAux l ((k + 1) / 10)
          = ((k + 1) % 10) :: digitsRevAux m ((k + 1) / 10)
      have hdiv : (k + 1) / 10 < k + 1 := Nat.div_lt_self (Nat.succ_pos k) (by norm_num)
      rw [ih m ((k + 1) / 10) (by omega) (by omega)]

/-- Unfolding rule for `natDigitsRev` on positive input. -/
theorem natDigitsRev_succ (n : ℕ) (h : n ≠ 0) :
    natDigitsRev n = (n % 10) :: natDigitsRev (n / 10) := by
  obtain ⟨k, rfl⟩ := Nat.exists_eq_succ_of_ne_zero h
  show digitsRevAux (k + 1) (k + 1) = _
  have hdiv : (k + 1) / 10 < k + 1 := Nat.div_lt_self (Nat.succ_pos k) (by norm_num)
  rw [show digitsRevAux (k + 1) (k + 1)
      = ((k + 1) % 10) :: digitsRevAux k ((k + 1) / 10) from rfl]
  rw [digitsRevAux_congr k ((k + 1) / 10) ((k + 1) / 10) (by omega) le_rfl]
  rfl

/-- The fuel-based digit list agrees with Mathlib's `Nat.digits` in base ten. -/
theorem natDigitsRev_eq_digits (n : ℕ) : natDigitsRev n = Nat.digits 10 n := by
  induction n using Nat.strong_induction_on with
  | _ n ih =>
    rcases Nat.eq_zero_or_pos n with h | h
    · subst h
      rw [Nat.digits_zero]
      rfl
    · rw [natDigitsRev_succ n (by omega), Nat.digits_def' (by norm_num : (1:ℕ) < 10) h,
        ih (n / 10) (Nat.div_lt_self h (by norm_num))]

/-- Left fold of the positional-value step from an arbitrary accumulator. -/
theorem valN_foldl (l : List ℕ) :
    ∀ a : ℕ, l.foldl (fun acc d => 10 * acc + d) a = a * 10 ^ l.length + valN l := by
  induction l with
  | nil => intro a; simp [valN]
  | cons c t ih =>
    intro a
    show t.foldl _ (10 * a + c) = _
    rw [ih (10 * a + c)]
    have hc : valN (c :: t) = c * 10 ^ t.length + valN t := by
      show t.foldl _ (10 * 0 + c) = _
      rw [ih (10 * 0 + c)]
      ring
    rw [hc]
    simp [List.length_cons]
    ring

/-- Positional value of an appended digit list. -/
theorem valN_append (a b : List ℕ) : valN (a ++ b) = valN a * 10 ^ b.length + valN b := by
  rw [valN, List.foldl_append, ← valN, valN_foldl]

/-- Positional value of a reversed list is Mathlib's `Nat.ofDigits`. -/
theorem ofDigits_eq_valN_reverse (l : List ℕ) : Nat.ofDigits 10 l = valN l.reverse := by
  induction l with
  | nil => rfl
  | cons d t ih =>
    rw [Nat.ofDigits_cons, List.reverse_cons, valN_append, ← ih]
    simp [valN]
    ring

/-- Digit-string value is the positional value of the digit values. -/
theorem digitVal_eq_valN (l : List Char) : digitVal l = valN (l.map charToDigit) := by
  rw [digitVal, valN, List.foldl_map]

/-- Digits produced by `natDigitsRev` are below ten. -/
theorem natDigitsRev_lt {n x : ℕ} (hx : x ∈ natDigitsRev n) : x < 10 := by
  rw [natDigitsRev_eq_digits] at hx
  exact Nat.digits_lt_base (by norm_num) hx

/-- Decimal rendering evaluates back to the rendered number. -/
theorem digitVal_natToChars (n : ℕ) : digitVal (natToChars n) = n := by
  rw [natToChars]
  by_cases h : n = 0
  · subst h; rfl
  · rw [if_neg h, digitVal_eq_valN, List.map_map]
    have hmap : ((natDigitsRev n).reverse).map (charToDigit ∘ digitToChar)
        = ((natDigitsRev n).reverse).map id := by
      apply List.map_congr_left
      intro x hx
      exact charToDigit_digitToChar (natDigitsRev_lt (List.mem_reverse.mp hx))
    rw [hmap, List.map_id, ← ofDigits_eq_valN_reverse, natDigitsRev_eq_digits,
      Nat.ofDigits_digits]

/-- Decimal renderings consist of digit characters only. -/
theorem natToChars_all_digits (n : ℕ) : (natToChars n).all Char.isDigit = true := by
  rw [natToChars]
  by_cases h : n = 0
  · subst h; rfl
  · rw [if_neg h, List.all_eq_true]
    intro c hc
    obtain ⟨x, hx, rfl⟩ := List.mem_map.mp hc
    exact isDigit_digitToChar (natDigitsRev_lt (List.mem_reverse.mp hx))

/-- Decimal renderings are never empty. -/
theorem natToChars_ne_nil (n : ℕ) : natToChars n ≠ [] := by
  rw [natToChars]
  by_cases h : n = 0
  · subst h; simp
  · rw [if_neg h]
    intro hnil
    have : natDigitsRev n = [] := by
      have := List.map_eq_nil_iff.mp hnil
      simpa using this
    rw [natDigitsRev_eq_digits] at this
    exact h (by simpa using Nat.digits_eq_nil_iff_eq_zero.mp this)

/-- Length bound for decimal renderings of numbers below `10 ^ k`. -/
theorem natToChars_length_le {n k : ℕ} (hk : 0 < k) (h : n < 10 ^ k) :
    (natToChars n).length ≤ k := by
  rw [natToChars]
  by_cases h0 : n = 0
  · subst h0; simpa using hk
  · rw [if_neg h0]
    have hlen : (Nat.digits 10 n).length = Nat.log 10 n + 1 :=
      Nat.digits_len 10 n (by norm_num) h0
    have hlog : Nat.log 10 n < k := (Nat.lt_pow_iff_log_lt (by norm_num) h0).mp h
    simp only [List.length_map, List.length_reverse, natDigitsRev_eq_digits]
    omega

/-- Value bound: an all-digit string of length `k` denotes less than `10 ^ k`. -/
theorem digitVal_lt_pow {l : List Char} (hall : l.all Char.isDigit = true) :
    digitVal l < 10 ^ l.length := by
  rw [digitVal_eq_valN]
  have hval : valN (l.map charToDigit) = Nat.ofDigits 10 ((l.map charToDigit).reverse) := by
    rw [ofDigits_eq_valN_reverse, List.reverse_reverse]
  rw [hval]
  have hbound := Nat.ofDigits_lt_base_pow_length (b := 10) (l := (l.map charToDigit).reverse)
    (by norm_num) ?_
  · simpa using hbound
  · intro x hx
    obtain ⟨c, hc, rfl⟩ := List.mem_map.mp (List.mem_reverse.mp hx)
    exact charToDigit_lt (List.all_eq_true.mp hall c hc)

/-- Appending digit strings multiplies and adds their values positionally. -/
theorem digitVal_append (a b : List Char) :
    digitVal (a ++ b) = digitVal a * 10 ^ b.length + digitVal b := by
  rw [digitVal_eq_valN, List.map_append, valN_append, ← digitVal_eq_valN,
    ← digitVal_eq_valN, List.length_map]

/-- Leading zero characters do not change a digit string's value. -/
theorem digitVal_replicate_zero (z : ℕ) : digitVal (List.replicate z '0') = 0 := by
  induction z with
  | zero => rfl
  | succ k ih =>
    rw [List.replicate_succ]
    show List.foldl _ (10 * 0 + charToDigit '0') _ = 0
    exact ih

/-- Reconstruction of a canonical digit string (no leading zero except the
single digit `"0"` itself) from its value. -/
theorem natToChars_digitVal_canonical {w : List Char} (hall : w.all Char.isDigit = true)
    (hne : w ≠ []) (hcanon : w.head? = some '0' → w = ['0']) :
    natToChars (digitVal w) = w := by
  by_cases h0 : w = ['0']
  · subst h0; rfl
  · have hhead : w.head? ≠ some '0' := fun hh => h0 (hcanon hh)
    have hD10 : ∀ x ∈ (w.map charToDigit).reverse, x < 10 := by
      intro x hx
      obtain ⟨c, hc, rfl⟩ := List.mem_map.mp (List.mem_reverse.mp hx)
      exact charToDigit_lt (List.all_eq_true.mp hall c hc)
    have hDne : (w.map charToDigit).reverse ≠ [] := by
      simpa using hne
    have hlast : ∀ h : (w.map charToDigit).reverse ≠ [],
        ((w.map charToDigit).reverse).getLast h ≠ 0 := by
      intro h hzero
      have hlast? : ((w.map charToDigit).reverse).getLast? = some 0 := by
        rw [List.getLast?_eq_getLast _ h, hzero]
      rw [List.getLast?_reverse, List.head?_map] at hlast?
      match hw : w.head? with
      | none =>
        have hwnil : w = [] := by simpa using hw
        exact hne hwnil
      | some c =>
        rw [hw] at hlast?
        have hc0 : charToDigit c = 0 := by simpa using hlast?
        have hcdig : c.isDigit = true := by
          have hmem : c ∈ w := by
            cases w with
            | nil => simp at hw
            | cons a t =>
              simp only [List.head?_cons, Option.some_inj] at hw
              subst hw; exact List.mem_cons_self _ _
          exact List.all_eq_true.mp hall c hmem
        have : c = '0' := by
          have := digitToChar_charToDigit hcdig
          rw [hc0] at this
          rw [← this]; rfl
        exact hhead (by rw [hw, this])
    have hofd := Nat.digits_ofDigits 10 (by norm_num) ((w.map charToDigit).reverse) hD10 hlast
    have hval : (digitVal w : ℕ) = Nat.ofDigits 10 ((w.map charToDigit).reverse) := by
      rw [digitVal_eq_valN, ofDigits_eq_valN_reverse, List.reverse_reverse]
    have hne0 : digitVal w ≠ 0 := by
      intro hz
      rw [hz] at hval
      rw [← hval] at hofd
      simp only [Nat.digits_zero] at hofd
      exact hDne hofd.symm
    rw [natToChars, if_neg hne0, natDigitsRev_eq_digits, hval, hofd, List.reverse_reverse,
      List.map_map]
    have : w.map (digitToChar ∘ charToDigit) = w.map id := by
      apply List.map_congr_left
      intro c hc
      exact digitToChar_charToDigit (List.all_eq_true.mp hall c hc)
    rw [this, List.map_id]

/-- Taking while a predicate holds of a whole prefix passes over it. -/
theorem takeWhile_append_all {p : Char → Bool} :
    ∀ {A r : List Char}, (∀ c ∈ A, p c = true) →
      (A ++ r).takeWhile p = A ++ r.takeWhile p := by
  intro A
  induction A with
  | nil => intro r _; rfl
  | cons a t ih =>
    intro r h
    rw [List.cons_append, List.takeWhile_cons_of_pos (h a (List.mem_cons_self _ _)),
      ih (fun c hc => h c (List.mem_cons_of_mem _ hc)), List.cons_append]

/-- Dropping while a predicate holds of a whole prefix removes it. -/
theorem dropWhile_append_all {p : Char → Bool} :
    ∀ {A r : List Char}, (∀ c ∈ A, p c = true) →
      (A ++ r).dropWhile p = r.dropWhile p := by
  intro A
  induction A with
  | nil => intro r _; rfl
  | cons a t ih =>
    intro r h
    rw [List.cons_append, List.dropWhile_cons_of_pos (h a (List.mem_cons_self _ _)),
      ih (fun c hc => h c (List.mem_cons_of_mem _ hc))]

/-- Core grammar on a pure digit string: whole part only. -/
theorem parseDecCore_digits {w : List Char} (hall : w.all Char.isDigit = true) (hne : w ≠ []) :
    parseDecCore w = some (w, []) := by
  have hmem := List.all_eq_true.mp hall
  have htw : w.takeWhile Char.isDigit = w := by
    have := takeWhile_append_all (p := Char.isDigit) (A := w) (r := []) hmem
    simpa using this
  have hdw : w.dropWhile Char.isDigit = [] := by
    have := dropWhile_append_all (p := Char.isDigit) (A := w) (r := []) hmem
    simpa using this
  rw [parseDecCore]
  simp only [htw, hdw, if_neg hne]

/-- Core grammar on digits, a dot and more digits. -/
theorem parseDecCore_dot {w f : List Char} (hwall : w.all Char.isDigit = true) (hwne : w ≠ [])
    (hfall : f.all Char.isDigit = true) (hfne : f ≠ []) :
    parseDecCore (w ++ '.' :: f) = some (w, f) := by
  have hmem := List.all_eq_true.mp hwall
  have htw : (w ++ '.' :: f).takeWhile Char.isDigit = w := by
    rw [takeWhile_append_all hmem, List.takeWhile_cons_of_neg (by decide), List.append_nil]
  have hdw : (w ++ '.' :: f).dropWhile Char.isDigit = '.' :: f := by
    rw [dropWhile_append_all hmem, List.dropWhile_cons_of_neg (by decide)]
  rw [parseDecCore]
  simp only [htw, hdw, if_neg hwne]
  simp [hfne, hfall]

/-- Sign splitting of a string that starts with a digit. -/
theorem splitNeg_digit_head {s : List Char} (hne : s ≠ [])
    (hhead : ∀ c, s.head? = some c → c.isDigit = true) : splitNeg s = (false, s) := by
  cases s with
  | nil => exact absurd rfl hne
  | cons c t =>
    have hc : c.isDigit = true := hhead c rfl
    have : c ≠ '-' := by
      intro h
      subst h
      exact absurd hc (by decide)
    rw [splitNeg]
    simp [this]

/-- Sign splitting of a minus-prefixed string. -/
theorem splitNeg_minus (s : List Char) : splitNeg ('-' :: s) = (true, s) := by
  rw [splitNeg]; simp

/-- Full grammar on a minus-prefixed body with known core parse. -/
theorem parseDec_minus_eq {s w f : List Char} (h : parseDecCore s = some (w, f)) :
    parseDec ('-' :: s) = some (true, w, f) := by
  simp [parseDec, splitNeg_minus, h]

/-- Full grammar on a digit-headed body with known core parse. -/
theorem parseDec_plain_eq {s w f : List Char} (hne : s ≠ [])
    (hhead : ∀ c, s.head? = some c → c.isDigit = true)
    (h : parseDecCore s = some (w, f)) : parseDec s = some (false, w, f) := by
  simp [parseDec, splitNeg_digit_head hne hhead, h]

/-- Evaluation of `#parseAmount` through a successful grammar match within
the decimal limit. -/
theorem parseAmount_of_parseDec {d : ℕ} {s : List Char} {sign : Bool} {w f : List Char}
    (h : parseDec s = some (sign, w, f)) (hlen : f.length ≤ d) :
    parseAmount d s
      = .ok (if sign then -(digitVal (w ++ padEndZeros d f) : ℤ)
             else (digitVal (w ++ padEndZeros d f) : ℤ)) := by
  simp only [parseAmount, h]
  rw [if_neg (by omega)]

/-- Reconstruction of an arbitrary non-empty digit string (leading zeros
included) from its value by left-zero-padding to its length. -/
theorem padStartZeros_digitVal : ∀ {g : List Char}, g.all Char.isDigit = true → g ≠ [] →
    padStartZeros g.length (natToChars (digitVal g)) = g := by
  intro g
  induction g with
  | nil => intro _ h; exact absurd rfl h
  | cons c t ih =>
    intro hall hne
    have htall : t.all Char.isDigit = true := by
      rw [List.all_eq_true] at hall ⊢
      intro x hx
      exact hall x (List.mem_cons_of_mem _ hx)
    by_cases hc : c = '0'
    · subst hc
      by_cases ht : t = []
      · subst ht; rfl
      · have hdv : digitVal ('0' :: t) = digitVal t := rfl
        rw [hdv]
        have hlen : (natToChars (digitVal t)).length ≤ t.length :=
          natToChars_length_le (List.length_pos.mpr ht) (digitVal_lt_pow htall)
        show padStartZeros ('0' :: t).length (natToChars (digitVal t)) = '0' :: t
        rw [padStartZeros]
        have hsub : ('0' :: t).length - (natToChars (digitVal t)).length
            = (t.length - (natToChars (digitVal t)).length) + 1 := by
          simp only [List.length_cons]
          omega
        rw [hsub, List.replicate_succ, List.cons_append]
        have := ih htall ht
        rw [padStartZeros] at this
        rw [this]
    · have hcanon : ((c :: t) : List Char).head? = some '0' → c :: t = ['0'] := by
        intro hh
        simp only [List.head?_cons, Option.some_inj] at hh
        exact absurd hh hc
      rw [natToChars_digitVal_canonical hall (by simp) hcanon, padStartZeros, Nat.sub_self]
      simp

/-- Round trip at the heart of `#createFromSubunits`: parsing a formatted
subunit count recovers it exactly, for every decimal-digit count and every
(positive, zero or negative) subunit count. -/
theorem parseAmount_formatSubunits (d : ℕ) (v : ℤ) :
    parseAmount d (formatSubunits d v) = .ok v := by
  by_cases hd : d = 0
  · subst hd
    have hcore : parseDecCore (natToChars v.natAbs) = some (natToChars v.natAbs, []) :=
      parseDecCore_digits (natToChars_all_digits _) (natToChars_ne_nil _)
    have hnat : digitVal (natToChars v.natAbs ++ padEndZeros 0 []) = v.natAbs := by
      rw [padEndZeros]
      simp [digitVal_natToChars]
    by_cases hv : v < 0
    · have hfmt : formatSubunits 0 v = '-' :: natToChars v.natAbs := by
        simp [formatSubunits, hv]
      rw [hfmt, parseAmount_of_parseDec (parseDec_minus_eq hcore) (by simp)]
      rw [if_pos rfl, hnat]
      refine congrArg Except.ok ?_
      omega
    · have hfmt : formatSubunits 0 v = natToChars v.natAbs := by
        simp [formatSubunits, hv]
      have hhead : ∀ c, (natToChars v.natAbs).head? = some c → c.isDigit = true := by
        intro c hc
        exact List.all_eq_true.mp (natToChars_all_digits _) c (List.mem_of_mem_head? hc)
      rw [hfmt, parseAmount_of_parseDec
        (parseDec_plain_eq (natToChars_ne_nil _) hhead hcore) (by simp)]
      rw [if_neg (by simp), hnat]
      refine congrArg Except.ok ?_
      omega
  · have hdpos : 0 < d := Nat.pos_of_ne_zero hd
    set a := v.natAbs with ha
    set wchars := natToChars (a / 10 ^ d) with hw
    set fchars := padStartZeros d (natToChars (a % 10 ^ d)) with hf
    have hfrLt : a % 10 ^ d < 10 ^ d := Nat.mod_lt _ (by positivity)
    have hfrLen : (natToChars (a % 10 ^ d)).length ≤ d := natToChars_length_le hdpos hfrLt
    have hfLen : fchars.length = d := by
      rw [hf, padStartZeros, List.length_append, List.length_replicate]
      omega
    have hfall : fchars.all Char.isDigit = true := by
      rw [List.all_eq_true]
      intro c hc
      rw [hf, padStartZeros] at hc
      rcases List.mem_append.mp hc with h | h
      · rw [List.eq_of_mem_replicate h]; rfl
      · exact List.all_eq_true.mp (natToChars_all_digits _) c h
    have hfne : fchars ≠ [] := by
      intro hnil
      rw [hnil] at hfLen
      simp at hfLen
      omega
    have hcore : parseDecCore (wchars ++ '.' :: fchars) = some (wchars, fchars) :=
      parseDecCore_dot (natToChars_all_digits _) (natToChars_ne_nil _) hfall hfne
    have hfval : digitVal fchars = a % 10 ^ d := by
      rw [hf, padStartZeros, digitVal_append, digitVal_replicate_zero, digitVal_natToChars]
      ring
    have hpe : padEndZeros d fchars = fchars := by
      rw [padEndZeros, hfLen, Nat.sub_self]
      simp
    have hnat : digitVal (wchars ++ padEndZeros d fchars) = a := by
      rw [hpe, digitVal_append, hfval, hfLen, hw, digitVal_natToChars, Nat.mul_comm]
      exact Nat.div_add_mod a (10 ^ d)
    have hlenOk : fchars.length ≤ d := le_of_eq hfLen
    by_cases hv : v < 0
    · have hfmt : formatSubunits d v = '-' :: (wchars ++ '.' :: fchars) := by
        simp [formatSubunits, hd, hv, hw, hf, ha]
      rw [hfmt, parseAmount_of_parseDec (parseDec_minus_eq hcore) hlenOk]
      rw [if_pos rfl, hnat]
      refine congrArg Except.ok ?_
      omega
    · have hfmt : formatSubunits d v = wchars ++ '.' :: fchars := by
        simp [formatSubunits, hd, hv, hw, hf, ha]
      have hbne : wchars ++ '.' :: fchars ≠ [] := by
        simp
      have hwnn : wchars ≠ [] := by
        rw [hw]
        exact natToChars_ne_nil _
      have hhead : ∀ c, (wchars ++ '.' :: fchars).head? = some c → c.isDigit = true := by
        intro c hc
        cases hwc : wchars with
        | nil => exact absurd hwc hwnn
        | cons x t =>
          rw [hwc] at hc
          simp only [List.cons_append, List.head?_cons, Option.some_inj] at hc
          rw [← hc]
          have hmem : x ∈ wchars := by
            rw [hwc]
            exact List.mem_cons_self _ _
          have hwall : wchars.all Char.isDigit = true := by
            rw [hw]
            exact natToChars_all_digits _
          exact List.all_eq_true.mp hwall x hmem
      rw [hfmt, parseAmount_of_parseDec (parseDec_plain_eq hbne hhead hcore) hlenOk]
      rw [if_neg (by simp), hnat]
      refine congrArg Except.ok ?_
      omega

/-- The `#createFromSubunits` factory is the identity on the subunit count:
formatting and re-parsing loses nothing. -/
theorem createFromSubunits_eq (c : String) (d : ℕ) (v : ℤ) :
    createFromSubunits c d v = ⟨c, d, v⟩ := by
  rw [createFromSubunits, parseAmount_formatSubunits]

/-- One in-range bump changes the list sum by exactly the bump. -/
theorem bumpAt_sum : ∀ (l : List ℤ) (j : ℕ) (d : ℤ), j < l.length →
    (bumpAt l j d).sum = l.sum + d := by
  intro l
  induction l with
  | nil =>
    intro j d h
    simp at h
  | cons x t ih =>
    intro j d h
    cases j with
    | zero =>
      show (((x :: t).getD 0 0 + d) :: t).sum = (x :: t).sum + d
      simp [List.getD]
      ring
    | succ k =>
      have hk : k < t.length := by simpa using h
      have hstep : bumpAt (x :: t) (k + 1) d = x :: bumpAt t k d := rfl
      rw [hstep, List.sum_cons, List.sum_cons, ih k d hk]
      ring

/-- Bumping preserves the list length. -/
theorem bumpAt_length (l : List ℤ) (j : ℕ) (d : ℤ) : (bumpAt l j d).length = l.length := by
  rw [bumpAt, List.length_set]

/-- The remainder loop adds exactly `count * d` to the total, regardless of
where the round-robin index starts. -/
theorem distributeLoop_sum :
    ∀ (count i : ℕ) (allocs : List ℤ) (d : ℤ), allocs ≠ [] →
      (distributeLoop allocs count i d).sum = allocs.sum + count * d := by
  intro count
  induction count with
  | zero =>
    intro i allocs d _
    simp [distributeLoop]
  | succ k ih =>
    intro i allocs d hne
    have hlen : 0 < allocs.length := List.length_pos.mpr hne
    have hmod : i % allocs.length < allocs.length := Nat.mod_lt _ hlen
    have hne2 : bumpAt allocs (i % allocs.length) d ≠ [] := by
      intro h0
      have hl := congrArg List.length h0
      rw [bumpAt_length] at hl
      simp at hl
      exact hne hl
    show (distributeLoop (bumpAt allocs (i % allocs.length) d) k (i + 1) d).sum = _
    rw [ih (i + 1) _ d hne2, bumpAt_sum _ _ _ hmod]
    push_cast
    ring

/-- Conservation at the subunit level: whenever the scaled proportion total
rounds to a non-zero weight, allocation succeeds and the shares sum exactly
to the input subunit count. -/
theorem allocateSubunits_sum {S : ℤ} {props : List ℚ} (hne : props ≠ [])
    (hnn : ∀ p ∈ props, 0 ≤ p) (htot : 0 < ratListSum props)
    (hW : jsRound (ratMul (ratListSum props) 1000000) ≠ 0) :
    ∃ shares, allocateSubunits S props = .ok shares ∧ shares.sum = S := by
  have hany : ¬ (props.any (fun p => p < 0) = true) := by
    simp only [List.any_eq_true, decide_eq_true_eq, not_exists]
    intro p
    rw [not_and]
    intro hp
    exact not_lt.mpr (hnn p hp)
  simp only [allocateSubunits, if_neg hne, if_neg hany, if_neg (not_le.mpr htot), if_neg hW]
  set allocs := props.map
    (fun p => (S * jsRound (ratMul p 1000000)).tdiv (jsRound (ratMul (ratListSum props) 1000000)))
    with hallocs
  have hane : allocs ≠ [] := by
    rw [hallocs]
    intro h0
    exact hne (List.map_eq_nil_iff.mp h0)
  refine ⟨_, rfl, ?_⟩
  by_cases hr : (0 : ℤ) ≤ S - allocs.sum
  · rw [if_pos hr, distributeLoop_sum _ _ _ _ hane]
    have hcast : ((S - allocs.sum).toNat : ℤ) = S - allocs.sum := Int.toNat_of_nonneg hr
    omega
  · rw [if_neg hr, distributeLoop_sum _ _ _ _ hane]
    have hcast : ((-(S - allocs.sum)).toNat : ℤ) = -(S - allocs.sum) :=
      Int.toNat_of_nonneg (by omega)
    omega

/-- Lookup after a map write: the written key reads back the new entry, all
other keys are unaffected. -/
theorem storeGet_set (s : Store) (e : RateEntry) (f t : String) :
    storeGet (storeSet s e) f t
      = if e.fromCur = f ∧ e.toCur = t then some e else storeGet s f t := by
  induction s with
  | nil => rfl
  | cons x xs ih =>
    rw [storeSet]
    by_cases hx : x.fromCur = e.fromCur ∧ x.toCur = e.toCur
    · rw [if_pos hx]
      show (if e.fromCur = f ∧ e.toCur = t then some e else storeGet xs f t) = _
      by_cases h : e.fromCur = f ∧ e.toCur = t
      · rw [if_pos h, if_pos h]
      · have hxk : ¬ (x.fromCur = f ∧ x.toCur = t) := by
          intro hk
          exact h ⟨hx.1.symm.trans hk.1, hx.2.symm.trans hk.2⟩
        rw [if_neg h, if_neg h]
        show _ = if x.fromCur = f ∧ x.toCur = t then some x else storeGet xs f t
        rw [if_neg hxk]
    · rw [if_neg hx]
      show (if x.fromCur = f ∧ x.toCur = t then some x else storeGet (storeSet xs e) f t) = _
      rw [ih]
      show _ = if e.fromCur = f ∧ e.toCur = t then some e
          else if x.fromCur = f ∧ x.toCur = t then some x else storeGet xs f t
      by_cases hxk : x.fromCur = f ∧ x.toCur = t
      · have h : ¬ (e.fromCur = f ∧ e.toCur = t) := by
          intro hk
          exact hx ⟨hxk.1.trans hk.1.symm, hxk.2.trans hk.2.symm⟩
        rw [if_pos hxk, if_neg h, if_pos hxk]
      · rw [if_neg hxk, if_neg hxk]

/-- Every entry of a written store is the written entry or an old entry. -/
theorem mem_storeSet {s : Store} {e y : RateEntry} (h : y ∈ storeSet s e) :
    y = e ∨ y ∈ s := by
  induction s with
  | nil =>
    exact Or.inl (List.mem_singleton.mp h)
  | cons x xs ih =>
    rw [storeSet] at h
    by_cases hx : x.fromCur = e.fromCur ∧ x.toCur = e.toCur
    · rw [if_pos hx] at h
      rcases List.mem_cons.mp h with h | h
      · exact Or.inl h
      · exact Or.inr (List.mem_cons_of_mem _ h)
    · rw [if_neg hx] at h
      rcases List.mem_cons.mp h with h | h
      · exact Or.inr (h ▸ List.mem_cons_self _ _)
      · rcases ih h with h | h
        · exact Or.inl h
        · exact Or.inr (List.mem_cons_of_mem _ h)

/-- Every entry surviving a removal was already present. -/
theorem mem_removeRate {s : Store} {f t : String} {y : RateEntry}
    (h : y ∈ removeRate s f t) : y ∈ s := by
  induction s with
  | nil => cases h
  | cons x xs ih =>
    rw [removeRate] at h
    by_cases hx : x.fromCur = f ∧ x.toCur = t
    · rw [if_pos hx] at h
      exact List.mem_cons_of_mem _ (ih h)
    · rw [if_neg hx] at h
      rcases List.mem_cons.mp h with h | h
      · exact h ▸ List.mem_cons_self _ _
      · exact List.mem_cons_of_mem _ (ih h)

/-- Auto-inverse synthesis: with distinct currencies and no pre-existing
reverse entry, `setRate` writes the reciprocal-rate reverse entry. -/
theorem setRate_creates_inverse {s : Store} {f t : String} (r : ℚ) (src : Option String)
    (hft : f ≠ t) (habsent : storeGet s t f = none) :
    storeGet (setRate s f t r src true) t f
      = some ⟨t, f, ratOneDiv r, tagInverse src⟩ := by
  have hkey : ¬ ((⟨f, t, r, src⟩ : RateEntry).fromCur = t
      ∧ (⟨f, t, r, src⟩ : RateEntry).toCur = f) := by
    intro hk
    exact hft hk.1
  have hget1 : storeGet (storeSet s ⟨f, t, r, src⟩) t f = none := by
    rw [storeGet_set, if_neg hkey]
    exact habsent
  simp only [setRate, if_true, storeHas, hget1, Option.isSome_none, Bool.false_eq_true,
    if_false]
  rw [storeGet_set, if_pos ⟨rfl, rfl⟩]

/-- Auto-inverse restraint: with distinct currencies, an explicitly present
reverse entry is left untouched by `setRate`. -/
theorem setRate_keeps_inverse {s : Store} {f t : String} {e : RateEntry} (r : ℚ)
    (src : Option String) (hft : f ≠ t) (hpresent : storeGet s t f = some e) :
    storeGet (setRate s f t r src true) t f = some e := by
  have hkey : ¬ ((⟨f, t, r, src⟩ : RateEntry).fromCur = t
      ∧ (⟨f, t, r, src⟩ : RateEntry).toCur = f) := by
    intro hk
    exact hft hk.1
  have hget1 : storeGet (storeSet s ⟨f, t, r, src⟩) t f = some e := by
    rw [storeGet_set, if_neg hkey]
    exact hpresent
  simp only [setRate, if_true, storeHas, hget1, Option.isSome_some, if_true]

/-- Same-currency requests are answered by the synthesized identity rate. -/
theorem getRate_same (s : Store) (x : String) :
    getRate s x x = some ⟨x, x, 1, some "(identity)"⟩ := by
  rw [getRate, if_pos rfl]

/-- Off-diagonal invariant is preserved by `setRate` with distinct
currencies: both the forward write and any synthesized inverse write carry
distinct currencies. -/
theorem noSelfRate_setRate {s : Store} {f t : String} {r : ℚ} {src : Option String}
    {auto : Bool} (hs : ∀ e ∈ s, e.fromCur ≠ e.toCur) (hft : f ≠ t) :
    ∀ e ∈ setRate s f t r src auto, e.fromCur ≠ e.toCur := by
  intro e he
  rw [setRate] at he
  cases auto with
  | false =>
    simp only [Bool.false_eq_true, if_false] at he
    rcases mem_storeSet he with rfl | h
    · exact hft
    · exact hs e h
  | true =>
    simp only [if_true] at he
    by_cases hh : storeHas (storeSet s ⟨f, t, r, src⟩) t f = true
    · rw [if_pos hh] at he
      rcases mem_storeSet he with rfl | h
      · exact hft
      · exact hs e h
    · rw [if_neg hh] at he
      rcases mem_storeSet he with rfl | h
      · exact hft.symm
      · rcases mem_storeSet h with rfl | h2
        · exact hft
        · exact hs e h2

/-- Off-diagonal invariant is preserved by `loadRates` over pairs of
distinct currencies. -/
theorem noSelfRate_loadRates {src : Option String} :
    ∀ (entries : List ((String × String) × ℚ)) (s : Store),
      (∀ e ∈ s, e.fromCur ≠ e.toCur) → (∀ x ∈ entries, x.1.1 ≠ x.1.2) →
      ∀ e ∈ loadRates s entries src, e.fromCur ≠ e.toCur := by
  intro entries
  induction entries with
  | nil =>
    intro s hs _ e he
    exact hs e he
  | cons x rest ih =>
    intro s hs hx e he
    have hstep : loadRates s (x :: rest) src
        = loadRates (setRate s x.1.1 x.1.2 x.2 src false) rest src := rfl
    rw [hstep] at he
    exact ih _ (noSelfRate_setRate hs (hx x (List.mem_cons_self _ _)))
      (fun y hy => hx y (List.mem_cons_of_mem _ hy)) e he

/-- Off-diagonal invariant is preserved by any single well-formed operation. -/
theorem noSelfRate_runOp {s : Store} {op : StoreOp} (hs : ∀ e ∈ s, e.fromCur ≠ e.toCur)
    (hop : goodOp op) : ∀ e ∈ runOp s op, e.fromCur ≠ e.toCur := by
  cases op with
  | set f t r src auto => exact noSelfRate_setRate hs hop
  | load entries src => exact noSelfRate_loadRates entries s hs hop
  | remove f t =>
    intro e he
    exact hs e (mem_removeRate he)
  | clearAll =>
    intro e he
    cases he

/-- Off-diagonal invariant holds of every store reachable by well-formed
operations from any invariant-satisfying start state. -/
theorem noSelfRate_foldl :
    ∀ (ops : List StoreOp) (s : Store), (∀ e ∈ s, e.fromCur ≠ e.toCur) →
      (∀ op ∈ ops, goodOp op) → ∀ e ∈ ops.foldl runOp s, e.fromCur ≠ e.toCur := by
  intro ops
  induction ops with
  | nil =>
    intro s hs _ e he
    exact hs e he
  | cons op rest ih =>
    intro s hs hops e he
    rw [List.foldl_cons] at he
    exact ih _ (noSelfRate_runOp hs (hops op (List.mem_cons_self _ _)))
      (fun y hy => hops y (List.mem_cons_of_mem _ hy)) e he

/-- Inversion of the sign-free grammar: a successful match has a non-empty
all-digit whole part and an all-digit fractional part. -/
theorem parseDecCore_inv {x w f : List Char} (h : parseDecCore x = some (w, f)) :
    w ≠ [] ∧ w.all Char.isDigit = true ∧ f.all Char.isDigit = true := by
  simp only [parseDecCore] at h
  by_cases hw : x.takeWhile Char.isDigit = []
  · rw [if_pos hw] at h
    cases h
  · rw [if_neg hw] at h
    have hwall : (x.takeWhile Char.isDigit).all Char.isDigit = true := by
      rw [List.all_eq_true]
      intro c hc
      exact List.mem_takeWhile_imp hc
    cases hrest : x.dropWhile Char.isDigit with
    | nil =>
      rw [hrest] at h
      simp only [Option.some_inj, Prod.mk.injEq] at h
      obtain ⟨hw1, hf1⟩ := h
      subst hw1
      subst hf1
      exact ⟨hw, hwall, by simp⟩
    | cons c g =>
      rw [hrest] at h
      have h' : (if c = '.' ∧ g ≠ [] ∧ g.all Char.isDigit then
          some (x.takeWhile Char.isDigit, g) else none) = some (w, f) := h
      by_cases hcond : c = '.' ∧ g ≠ [] ∧ g.all Char.isDigit
      · rw [if_pos hcond] at h'
        simp only [Option.some_inj, Prod.mk.injEq] at h'
        obtain ⟨hw1, hf1⟩ := h'
        subst hw1
        subst hf1
        exact ⟨hw, hwall, hcond.2.2⟩
      · rw [if_neg hcond] at h'
        cases h'

/-- Inversion of the full amount grammar. -/
theorem parseDec_inv {s : List Char} {sign : Bool} {w f : List Char}
    (h : parseDec s = some (sign, w, f)) :
    w ≠ [] ∧ w.all Char.isDigit = true ∧ f.all Char.isDigit = true := by
  simp only [parseDec] at h
  cases hc : parseDecCore (splitNeg s).2 with
  | none =>
    rw [hc] at h
    cases h
  | some wf =>
    rw [hc] at h
    simp only [Option.map_some', Option.some_inj, Prod.mk.injEq] at h
    obtain ⟨-, hw1, hf1⟩ := h
    have := parseDecCore_inv (x := (splitNeg s).2) (w := wf.1) (f := wf.2) (by rw [hc])
    rw [hw1] at this
    rw [hf1] at this
    exact this

/-- Claim C1, counterexample to the claim as stated: at numerator 4 and
denominator 3 the remainder's absolute value (1) is strictly below the true
half (3/2), so the claim requires the truncated quotient 1, but
`roundedDivide` returns 2: the code compares against the integer-division
halfpoint `3 tdiv 2 = 1`, hits its tie branch, and moves the odd quotient
away from zero. -/
theorem c1_roundedDivide_counterexample :
    2 * |Int.tmod 4 3| < 3 ∧ roundedDivide 4 3 ≠ Int.tdiv 4 3 := by
  decide

/-- Claim C1 as amended: for every numerator and every positive denominator,
`roundedDivide` compares the remainder's absolute value against the
integer-division halfpoint `d tdiv 2` (not the true half `d / 2`): strictly
below it (or an exact division) returns the truncated quotient, strictly
above it moves the quotient one away from zero, and exactly at it (with a
non-zero remainder) returns the even neighbor: the truncated quotient if it
is already even, otherwise the quotient moved one away from zero.  For even
denominators the halfpoint is the true half, so there the original claim
holds verbatim. -/
theorem c1_roundedDivide_halfpoint (n d : ℤ) (hd : 0 < d) :
    (n.tmod d = 0 → roundedDivide n d = n.tdiv d)
    ∧ (|n.tmod d| < d.tdiv 2 → roundedDivide n d = n.tdiv d)
    ∧ (d.tdiv 2 < |n.tmod d| →
        roundedDivide n d = (if n < 0 then n.tdiv d - 1 else n.tdiv d + 1))
    ∧ (n.tmod d ≠ 0 → |n.tmod d| = d.tdiv 2 →
        roundedDivide n d = (if (n.tdiv d).tmod 2 = 0 then n.tdiv d
          else if n < 0 then n.tdiv d - 1 else n.tdiv d + 1)) := by
  by_cases hd1 : d = 1
  · subst hd1
    have hq : n.tdiv 1 = n := Int.tdiv_one n
    have hm : n.tmod 1 = 0 := Int.tmod_one n
    refine ⟨fun _ => ?_, fun h => ?_, fun h => ?_, fun hr _ => absurd hm hr⟩
    · rw [roundedDivide, if_pos rfl, hq]
    · exfalso
      rw [hm, show Int.tdiv 1 2 = (0 : ℤ) from by decide] at h
      simp at h
    · exfalso
      rw [hm, show Int.tdiv 1 2 = (0 : ℤ) from by decide] at h
      simp at h
  · have hhalf : (0 : ℤ) ≤ Int.tdiv d 2 := Int.tdiv_nonneg (le_of_lt hd) (by norm_num)
    have habs : (if n.tmod d < 0 then -(n.tmod d) else n.tmod d) = |n.tmod d| := by
      rcases lt_or_ge (n.tmod d) 0 with h | h
      · rw [if_pos h, abs_of_neg h]
      · rw [if_neg (not_lt.mpr h), abs_of_nonneg h]
    simp only [roundedDivide, if_neg hd1, habs]
    refine ⟨fun h => ?_, fun h => ?_, fun h => ?_, fun hr h => ?_⟩
    · rw [if_pos h]
    · by_cases hr : n.tmod d = 0
      · rw [if_pos hr]
      · rw [if_neg hr, if_neg (not_lt.mpr h.le), if_neg (ne_of_lt h)]
    · have hr : n.tmod d ≠ 0 := by
        intro h0
        rw [h0] at h
        simp at h
        omega
      rw [if_neg hr, if_pos h]
    · rw [if_neg hr, if_neg (by rw [h]; exact lt_irrefl _), if_pos h]

/-- Claim C1 witness: at 7/2 the remainder hits the halfpoint exactly, the
truncated quotient 3 is odd, and the division rounds away from zero to 4. -/
theorem c1_roundedDivide_witness : (0 : ℤ) < 2 ∧ roundedDivide 7 2 = 4 := by
  refine ⟨by decide, ?_⟩
  have h := (c1_roundedDivide_halfpoint 7 2 (by decide)).2.2.2 (by decide) (by decide)
  rw [h]
  decide

/-- Claim C2, counterexample to the claim as stated: the proportions list
`[10⁻⁷]` is valid (non-empty, finite, non-negative, positive sum), but its
sum scaled by 10⁶ rounds to the zero `BigInt`, so `allocate` aborts with the
division-by-zero `RangeError` instead of returning shares that sum to the
original value. -/
theorem c2_allocate_counterexample :
    (([mkRat 1 10000000] : List ℚ) ≠ []
      ∧ (∀ p ∈ ([mkRat 1 10000000] : List ℚ), 0 ≤ p)
      ∧ 0 < ratListSum [mkRat 1 10000000])
    ∧ moneyAllocate ⟨"USD", 2, 10000⟩ [mkRat 1 10000000] = .error .rangeDivByZero := by
  decide

/-- Claim C2 as amended: for every Money value and every valid proportions
list (non-empty, all entries non-negative, positive sum) whose sum scaled by
10⁶ rounds to a non-zero weight, `allocate` succeeds and the returned
shares' subunits sum exactly to the original subunit count — no unit lost
or created. -/
theorem c2_allocate_conserves {m : Money} {props : List ℚ} (hne : props ≠ [])
    (hnn : ∀ p ∈ props, 0 ≤ p) (htot : 0 < ratListSum props)
    (hW : jsRound (ratMul (ratListSum props) 1000000) ≠ 0) :
    ∃ shares, moneyAllocate m props = .ok shares
      ∧ (shares.map toSubunits).sum = toSubunits m := by
  obtain ⟨allocs, hok, hsum⟩ := allocateSubunits_sum (S := m.subunits) hne hnn htot hW
  refine ⟨allocs.map (createFromSubunits m.currency m.decimals), ?_, ?_⟩
  · rw [moneyAllocate, hok]
    rfl
  · rw [List.map_map]
    have hid : ∀ a ∈ allocs, (toSubunits ∘ createFromSubunits m.currency m.decimals) a = id a := by
      intro a _
      show toSubunits (createFromSubunits m.currency m.decimals a) = a
      rw [createFromSubunits_eq]
      rfl
    rw [List.map_congr_left hid, List.map_id]
    exact hsum

/-- Claim C2 witness: splitting 100.00 USD three equal ways conserves the
10000 subunits exactly. -/
theorem c2_allocate_witness :
    (([1, 1, 1] : List ℚ) ≠ [] ∧ (∀ p ∈ ([1, 1, 1] : List ℚ), 0 ≤ p)
      ∧ 0 < ratListSum [1, 1, 1] ∧ jsRound (ratMul (ratListSum [1, 1, 1]) 1000000) ≠ 0)
    ∧ ∃ shares, moneyAllocate ⟨"USD", 2, 10000⟩ [1, 1, 1] = .ok shares
      ∧ (shares.map toSubunits).sum = toSubunits ⟨"USD", 2, 10000⟩ := by
  exact ⟨⟨by decide, by decide, by decide, by decide⟩,
    c2_allocate_conserves (by decide) (by decide) (by decide) (by decide)⟩

/-- Claim C3: multiplying USD 1.00 by the six exact-half factors 0.545 …
0.595 (each taken as its exact decimal digit string over a power of ten and
rounded once, half to even) yields results summing to exactly 3.42. -/
theorem c3_multiply_unbiased_half_sum :
    (mkMoney [("USD", 2)] "USD" ("1.00".toList) >>= fun m =>
      moneyMultiply m ⟨false, ['0'], "545".toList, 0⟩ >>= fun r1 =>
      moneyMultiply m ⟨false, ['0'], "555".toList, 0⟩ >>= fun r2 =>
      moneyMultiply m ⟨false, ['0'], "565".toList, 0⟩ >>= fun r3 =>
      moneyMultiply m ⟨false, ['0'], "575".toList, 0⟩ >>= fun r4 =>
      moneyMultiply m ⟨false, ['0'], "585".toList, 0⟩ >>= fun r5 =>
      moneyMultiply m ⟨false, ['0'], "595".toList, 0⟩ >>= fun r6 =>
      moneyAdd r1 r2 >>= fun s2 =>
      moneyAdd s2 r3 >>= fun s3 =>
      moneyAdd s3 r4 >>= fun s4 =>
      moneyAdd s4 r5 >>= fun s5 =>
      moneyAdd s5 r6)
      = .ok ⟨"USD", 2, 342⟩
    ∧ formatSubunits 2 342 = "3.42".toList := by
  decide

/-- Claim C4, counterexample to the claim as stated: `"00.5"` is
syntactically valid for a two-decimal currency and within the decimal limit,
but parsing and formatting yields `"0.50"`, not the claimed normalization
`"00.50"` — formatting canonicalizes the whole part, dropping redundant
leading zeros. -/
theorem c4_roundtrip_counterexample :
    (mkMoney [("USD", 2)] "USD" ("00.5".toList)).map
        (fun m => formatSubunits m.decimals m.subunits) = .ok ("0.50".toList)
    ∧ normalizeAmount 2 ("00.5".toList) = "00.50".toList
    ∧ ("0.50".toList : List Char) ≠ "00.50".toList := by
  decide

/-- Claim C4 as amended: for every registered currency and every
syntactically valid decimal string within the currency's decimal limit whose
whole part carries no redundant leading zero and which is not a negative
zero, parsing and then formatting yields the string with its fractional part
zero-padded to exactly the currency's decimal-place count. -/
theorem c4_parse_format_roundtrip {reg : Registry} {c : String} {d : ℕ} {s : List Char}
    {sign : Bool} {w f : List Char}
    (hreg : lookupCurrency reg c = some d)
    (hparse : parseDec s = some (sign, w, f))
    (hfrac : f.length ≤ d)
    (hlead : w.head? = some '0' → w = ['0'])
    (hnz : sign = true → digitVal (w ++ padEndZeros d f) ≠ 0) :
    (mkMoney reg c s).map (fun m => formatSubunits m.decimals m.subunits)
      = .ok (normalizeAmount d s) := by
  obtain ⟨hwne, hwall, hfall⟩ := parseDec_inv hparse
  set N := digitVal (w ++ padEndZeros d f) with hN
  have hmk : mkMoney reg c s = .ok ⟨c, d, if sign then -(N : ℤ) else (N : ℤ)⟩ := by
    simp only [mkMoney, hreg, parseAmount_of_parseDec hparse hfrac, Except.map]
  rw [hmk]
  show Except.ok (formatSubunits d (if sign then -(N : ℤ) else (N : ℤ)))
      = Except.ok (normalizeAmount d s)
  refine congrArg Except.ok ?_
  rw [normalizeAmount, hparse]
  set v : ℤ := if sign then -(N : ℤ) else (N : ℤ) with hv
  have hvabs : v.natAbs = N := by
    rw [hv]
    cases sign <;> simp
  have hwcanon : natToChars (digitVal w) = w := natToChars_digitVal_canonical hwall hwne hlead
  have hsignchars : (if v < 0 then (['-'] : List Char) else []) = (if sign then ['-'] else []) := by
    cases hsb : sign with
    | false =>
      have hnn : ¬ v < 0 := by
        rw [hv, hsb]
        simp
      rw [if_neg hnn]
      simp
    | true =>
      have hN0 : N ≠ 0 := hnz hsb
      have hneg : v < 0 := by
        rw [hv, hsb]
        simp
        omega
      rw [if_pos hneg]
      simp
  by_cases hd : d = 0
  · subst hd
    have hfnil : f = [] := List.eq_nil_of_length_eq_zero (Nat.le_zero.mp hfrac)
    subst hfnil
    have hNW : N = digitVal w := by
      rw [hN, padEndZeros]
      simp
    simp only [formatSubunits]
    rw [hvabs, hNW, hwcanon, hsignchars]
    simp
  · simp only [formatSubunits, if_neg hd]
    set g := padEndZeros d f with hg
    have hglen : g.length = d := by
      rw [hg, padEndZeros, List.length_append, List.length_replicate]
      omega
    have hgall : g.all Char.isDigit = true := by
      rw [List.all_eq_true]
      intro y hy
      rw [hg, padEndZeros] at hy
      rcases List.mem_append.mp hy with hmem | hmem
      · exact List.all_eq_true.mp hfall y hmem
      · rw [List.eq_of_mem_replicate hmem]
        rfl
    have hgne : g ≠ [] := by
      intro h0
      rw [h0] at hglen
      simp at hglen
      omega
    have hNsplit : N = digitVal w * 10 ^ d + digitVal g := by
      rw [hN, digitVal_append, hglen]
    have hgval : digitVal g < 10 ^ d := by
      have := digitVal_lt_pow hgall
      rw [hglen] at this
      exact this
    have hdivW : v.natAbs / 10 ^ d = digitVal w := by
      rw [hvabs, hNsplit, Nat.mul_comm (digitVal w), Nat.mul_add_div (by positivity),
        Nat.div_eq_of_lt hgval, Nat.add_zero]
    have hmodG : v.natAbs % 10 ^ d = digitVal g := by
      rw [hvabs, hNsplit, Nat.mul_comm (digitVal w), Nat.mul_add_mod]
      exact Nat.mod_eq_of_lt hgval
    have hpad : padStartZeros d (natToChars (digitVal g)) = g := by
      have := padStartZeros_digitVal hgall hgne
      rw [hglen] at this
      exact this
    rw [hdivW, hmodG, hwcanon, hpad, hsignchars, hg, padEndZeros]
    simp

/-- Claim C4 witness: parsing and formatting `"19.9"` for USD yields the
normalized `"19.90"`. -/
theorem c4_roundtrip_witness :
    (lookupCurrency [("USD", 2)] "USD" = some 2
      ∧ parseDec ("19.9".toList) = some (false, "19".toList, "9".toList))
    ∧ (mkMoney [("USD", 2)] "USD" ("19.9".toList)).map
        (fun m => formatSubunits m.decimals m.subunits)
      = .ok (normalizeAmount 2 ("19.9".toList)) := by
  refine ⟨⟨by decide, by decide⟩, ?_⟩
  exact @c4_parse_format_roundtrip [("USD", 2)] "USD" 2 ("19.9".toList) false
    ("19".toList) ("9".toList) (by decide) (by decide) (by decide) (by decide) (by decide)

/-- Claim C5: converting to a different, unregistered target currency always
fails with the unknown-currency error kind — the target's definition is
resolved before the rate lookup, so no value is produced and no other error
kind can be reported for this condition. -/
theorem c5_convert_unknown_currency {reg : Registry} {s : Store} {m : Money} {t : String}
    (hne : m.currency ≠ t) (hunreg : lookupCurrency reg t = none) :
    convert reg s m t = .error .currencyUnknown := by
  simp only [convert, if_neg hne, hunreg]

/-- Claim C5 witness: converting USD to the unregistered code XYZ fails with
the unknown-currency kind even when a rate for the pair is present. -/
theorem c5_convert_unknown_currency_witness :
    convert [("USD", 2)] (setRate emptyStore "USD" "XYZ" (mkRat 1 2) none false)
      ⟨"USD", 2, 100⟩ "XYZ" = .error .currencyUnknown :=
  c5_convert_unknown_currency (by decide) (by decide)

/-- Claim C6, counterexample to the claim as stated: calling
`setRate("USD","USD",2)` on a fresh store is a call where no explicit
`(to, from)` entry exists beforehand, yet no entry with rate 1/2 is
synthesized — the forward write itself occupies the `(to, from)` key, the
auto-inverse check then sees it and skips, and the surviving entry carries
rate 2. -/
theorem c6_setRate_counterexample :
    storeGet emptyStore "USD" "USD" = none
    ∧ (storeGet (setRate emptyStore "USD" "USD" 2 none true) "USD" "USD").map
        RateEntry.rate = some 2
    ∧ ((2 : ℚ) ≠ 1 / 2) := by
  refine ⟨by decide, by decide, by norm_num⟩

/-- Claim C6 as amended: for every store state and every
`setRate(from, to, rate)` call with auto-inverse on and `from ≠ to`: if no
explicit `(to, from)` entry exists, a `(to, from)` entry with rate `1/rate`
is synthesized; if one exists, it is left unchanged.  In particular, after
`setRate("USD","EUR",0.92)` on a fresh store, `getRate("EUR","USD")` returns
a rate greater than 1. -/
theorem c6_setRate_autoInverse {s : Store} {f t : String} (r : ℚ) (src : Option String)
    (hft : f ≠ t) :
    (storeGet s t f = none →
      storeGet (setRate s f t r src true) t f = some ⟨t, f, 1 / r, tagInverse src⟩)
    ∧ (∀ e, storeGet s t f = some e → storeGet (setRate s f t r src true) t f = some e)
    ∧ 1 < ((getRate (setRate emptyStore "USD" "EUR" (mkRat 23 25) none true) "EUR" "USD").map
        RateEntry.rate).getD 0 := by
  refine ⟨?_, ?_, by decide⟩
  · intro h
    rw [setRate_creates_inverse r src hft h, ratOneDiv_eq]
  · intro e h
    exact setRate_keeps_inverse r src hft h

/-- Claim C6 witness: a fresh store has no EUR→USD entry, and after
`setRate("USD","EUR",23/25)` the synthesized EUR→USD entry carries the
reciprocal rate. -/
theorem c6_setRate_autoInverse_witness :
    storeGet emptyStore "EUR" "USD" = none
    ∧ storeGet (setRate emptyStore "USD" "EUR" (mkRat 23 25) none true) "EUR" "USD"
      = some ⟨"EUR", "USD", 1 / mkRat 23 25, tagInverse none⟩ := by
  refine ⟨by decide, ?_⟩
  exact (c6_setRate_autoInverse (mkRat 23 25) none (by decide)).1 (by decide)

/-- Claim C7: `add`, `subtract` and `equalTo` on operands of different
currencies each fail with the currency-mismatch error kind; none of them
produces a result by coercing one operand's currency into the other. -/
theorem c7_currency_mismatch_guard {a b : Money} (h : a.currency ≠ b.currency) :
    moneyAdd a b = .error .currencyMismatch
    ∧ moneySubtract a b = .error .currencyMismatch
    ∧ moneyEqualTo a b = .error .currencyMismatch := by
  refine ⟨?_, ?_, ?_⟩
  · rw [moneyAdd, if_pos h]
  · rw [moneySubtract, if_pos h]
  · rw [moneyEqualTo, if_pos h]

/-- Claim C7 witness: USD and EUR operands make all three operations fail
with the currency-mismatch kind. -/
theorem c7_currency_mismatch_witness :
    moneyAdd ⟨"USD", 2, 1000⟩ ⟨"EUR", 2, 500⟩ = .error .currencyMismatch
    ∧ moneySubtract ⟨"USD", 2, 1000⟩ ⟨"EUR", 2, 500⟩ = .error .currencyMismatch
    ∧ moneyEqualTo ⟨"USD", 2, 1000⟩ ⟨"EUR", 2, 500⟩ = .error .currencyMismatch :=
  c7_currency_mismatch_guard (by decide)

/-- Claim C8: for a registered currency, construction from a grammar-valid
string whose fractional part exceeds the currency's decimal-place count
fails with the subunit-precision-exceeded kind (never silently truncating),
a grammar-valid string within the limit never raises that kind, and a
grammar-invalid string raises the invalid-amount kind instead. -/
theorem c8_subunit_precision_guard {reg : Registry} {c : String} {d : ℕ} {s : List Char}
    (hreg : lookupCurrency reg c = some d) :
    (∀ sign w f, parseDec s = some (sign, w, f) →
      (d < f.length → mkMoney reg c s = .error .subunitExceeded)
      ∧ (f.length ≤ d → mkMoney reg c s ≠ .error .subunitExceeded))
    ∧ (parseDec s = none → mkMoney reg c s = .error .amountInvalid) := by
  constructor
  · intro sign w f hp
    constructor
    · intro hlen
      simp only [mkMoney, hreg, parseAmount, hp, if_pos hlen, Except.map]
    · intro hlen
      simp only [mkMoney, hreg, parseAmount_of_parseDec hp hlen, Except.map]
      simp
  · intro hp
    simp only [mkMoney, hreg, parseAmount, hp, Except.map]

/-- Claim C8 witness: for USD (2 decimals), `"1.999"` fails with the
subunit-precision kind while `"19.99"` does not. -/
theorem c8_subunit_precision_witness :
    mkMoney [("USD", 2)] "USD" ("1.999".toList) = .error .subunitExceeded
    ∧ mkMoney [("USD", 2)] "USD" ("19.99".toList) ≠ .error .subunitExceeded := by
  constructor
  · exact ((@c8_subunit_precision_guard [("USD", 2)] "USD" 2 ("1.999".toList)
      (by decide)).1 false ("1".toList) ("999".toList) (by decide)).1 (by decide)
  · exact ((@c8_subunit_precision_guard [("USD", 2)] "USD" 2 ("19.99".toList)
      (by decide)).1 false ("19".toList) ("99".toList) (by decide)).2 (by decide)

/-- Claim C9, counterexample to the claim as stated: the single-operation
sequence `setRate("USD","USD",2)` (a legal call, `from == to` included by
the claim) reaches a store whose entry has equal `from` and `to` — `setRate`
never guards against writing the diagonal pair. -/
theorem c9_self_rate_counterexample :
    ∃ e ∈ runOps [.set "USD" "USD" 2 none true], e.fromCur = e.toCur := by
  decide

/-- Claim C9 as amended: over every operation sequence whose `setRate` and
`loadRates` writes all carry distinct currency pairs, no reachable store
entry has its `from` currency equal to its `to` currency; and independently
of the store's contents, a same-currency `getRate` always synthesizes the
identity rate 1 without consulting storage. -/
theorem c9_no_self_rates {ops : List StoreOp} (hops : ∀ op ∈ ops, goodOp op) :
    (∀ e ∈ runOps ops, e.fromCur ≠ e.toCur)
    ∧ ∀ (s : Store) (x : String), getRate s x x = some ⟨x, x, 1, some "(identity)"⟩ := by
  constructor
  · exact noSelfRate_foldl ops emptyStore (fun e he => absurd he (List.not_mem_nil e)) hops
  · exact getRate_same

/-- Claim C9 witness: a mixed well-formed sequence (set with auto-inverse,
bulk load, removal, clear) reaches only off-diagonal entries. -/
theorem c9_no_self_rates_witness :
    (∀ op ∈ [StoreOp.set "USD" "EUR" (mkRat 23 25) none true,
        StoreOp.load [(("EUR", "GBP"), mkRat 4 5)] none,
        StoreOp.remove "USD" "EUR", StoreOp.clearAll], goodOp op)
    ∧ ∀ e ∈ runOps [StoreOp.set "USD" "EUR" (mkRat 23 25) none true,
        StoreOp.load [(("EUR", "GBP"), mkRat 4 5)] none,
        StoreOp.remove "USD" "EUR", StoreOp.clearAll], e.fromCur ≠ e.toCur := by
  have hops : ∀ op ∈ [StoreOp.set "USD" "EUR" (mkRat 23 25) none true,
      StoreOp.load [(("EUR", "GBP"), mkRat 4 5)] none,
      StoreOp.remove "USD" "EUR", StoreOp.clearAll], goodOp op := by
    intro op hop
    simp only [List.mem_cons, List.not_mem_nil, or_false] at hop
    rcases hop with rfl | rfl | rfl | rfl
    · show ("USD" : String) ≠ "EUR"
      decide
    · show ∀ x ∈ [(("EUR", "GBP"), mkRat 4 5)], x.1.1 ≠ x.1.2
      decide
    · trivial
    · trivial
  exact ⟨hops, (c9_no_self_rates hops).1⟩

/-- Claim C10: for every registered currency and every integer subunit
count, `fromSubunits` followed by `toSubunits` is an exact round trip — the
decimal formatting and re-parsing inside the factory loses nothing, for any
decimal-place count and arbitrarily large positive or negative counts. -/
theorem c10_subunit_roundtrip {reg : Registry} {c : String} {d : ℕ} (n : ℤ)
    (hreg : lookupCurrency reg c = some d) :
    (fromSubunits reg n c).map toSubunits = .ok n := by
  simp only [fromSubunits, hreg, Except.map, createFromSubunits_eq]
  rfl

/-- Claim C10 witness: a 39-digit negative subunit count round-trips through
a 30-decimal currency. -/
theorem c10_subunit_roundtrip_witness :
    lookupCurrency [("XNO", 30)] "XNO" = some 30
    ∧ (fromSubunits [("XNO", 30)]
        (-123456789012345678901234567890123456789) "XNO").map toSubunits
      = .ok (-123456789012345678901234567890123456789) :=
  ⟨by decide, @c10_subunit_roundtrip [("XNO", 30)] "XNO" 30
    (-123456789012345678901234567890123456789) (by decide)⟩

end SubunitMoney
